import Mathlib

/-!
Verification of the two-pass novel-translation pipeline (`src/main.rs`,
`src/llm.rs`) against its natural-language specification.

The Rust code is shallowly embedded: `HashMap<String, String>` becomes an
association list with insert-replaces-value semantics, the file system
(glossary snapshots and translated outputs) becomes explicit string-keyed
maps, and the fallible external steps of `process_chapter` (file read, the
two LLM calls, JSON parsing of the analysis response, glossary save, output
write) are driven by an oracle describing their outcomes.
-/

namespace NovelTrans

/-! ## Model of `HashMap<String, V>`

`hmGet` is lookup, `hmInsert` is `HashMap::insert` (replacing any existing
value at the key), and `hmExtend` is `HashMap::extend` (inserting every
entry of the second map into the first, in order). Keys are unique in a
real `HashMap`; where a proof needs that invariant it takes it as a
`Nodup` hypothesis on the key list. -/

def hmGet {V : Type} : List (String × V) → String → Option V
  | [], _ => none
  | (k', v) :: rest, k => if k = k' then some v else hmGet rest k

def hmDel {V : Type} (m : List (String × V)) (k : String) : List (String × V) :=
  m.filter (fun p => decide (p.1 ≠ k))

def hmInsert {V : Type} (m : List (String × V)) (k : String) (v : V) :
    List (String × V) :=
  (k, v) :: hmDel m k

def hmExtend {V : Type} (m r : List (String × V)) : List (String × V) :=
  r.foldl (fun acc p => hmInsert acc p.1 p.2) m

def hmKeys {V : Type} (m : List (String × V)) : List String := m.map Prod.fst

theorem hmGet_nil {V : Type} (k : String) : hmGet ([] : List (String × V)) k = none := rfl

theorem hmGet_cons {V : Type} (a : String) (b : V) (rest : List (String × V)) (k : String) :
    hmGet ((a, b) :: rest) k = if k = a then some b else hmGet rest k := rfl

theorem hmGet_del_ne {V : Type} (m : List (String × V)) (k k' : String) (h : k' ≠ k) :
    hmGet (hmDel m k) k' = hmGet m k' := by
  induction m with
  | nil => rfl
  | cons p rest ih =>
    obtain ⟨a, b⟩ := p
    by_cases hak : a = k
    · subst hak
      have : hmDel ((a, b) :: rest) a = hmDel rest a := by
        simp [hmDel, List.filter_cons]
      rw [this, ih, hmGet_cons, if_neg h]
    · have : hmDel ((a, b) :: rest) k = (a, b) :: hmDel rest k := by
        simp [hmDel, List.filter_cons, hak]
      rw [this, hmGet_cons, hmGet_cons, ih]

theorem hmGet_insert_self {V : Type} (m : List (String × V)) (k : String) (v : V) :
    hmGet (hmInsert m k v) k = some v := by
  simp [hmInsert, hmGet_cons]

theorem hmGet_insert_ne {V : Type} (m : List (String × V)) (k k' : String) (v : V)
    (h : k' ≠ k) : hmGet (hmInsert m k v) k' = hmGet m k' := by
  rw [hmInsert, hmGet_cons, if_neg h, hmGet_del_ne m k k' h]

theorem mem_hmKeys_del {V : Type} (m : List (String × V)) (k k' : String) :
    k' ∈ hmKeys (hmDel m k) ↔ k' ∈ hmKeys m ∧ k' ≠ k := by
  simp only [hmKeys, hmDel, List.mem_map, List.mem_filter, decide_eq_true_eq]
  constructor
  · rintro ⟨p, ⟨hp, hne⟩, rfl⟩
    exact ⟨⟨p, hp, rfl⟩, hne⟩
  · rintro ⟨⟨p, hp, rfl⟩, hne⟩
    exact ⟨p, ⟨hp, hne⟩, rfl⟩

theorem mem_hmKeys_insert {V : Type} (m : List (String × V)) (k k' : String) (v : V) :
    k' ∈ hmKeys (hmInsert m k v) ↔ k' = k ∨ k' ∈ hmKeys m := by
  show k' ∈ hmKeys ((k, v) :: hmDel m k) ↔ _
  simp only [hmKeys, List.map_cons, List.mem_cons]
  constructor
  · rintro (rfl | h)
    · exact Or.inl rfl
    · exact Or.inr ((mem_hmKeys_del m k k').mp h).1
  · rintro (rfl | h)
    · exact Or.inl rfl
    · by_cases hk : k' = k
      · exact Or.inl hk
      · exact Or.inr ((mem_hmKeys_del m k k').mpr ⟨h, hk⟩)

theorem hmExtend_nil {V : Type} (m : List (String × V)) : hmExtend m [] = m := rfl

theorem hmExtend_cons {V : Type} (m rest : List (String × V)) (a : String) (b : V) :
    hmExtend m ((a, b) :: rest) = hmExtend (hmInsert m a b) rest := rfl

theorem hmGet_extend_not_mem {V : Type} (r : List (String × V)) :
    ∀ (m : List (String × V)) (k : String), k ∉ hmKeys r →
      hmGet (hmExtend m r) k = hmGet m k := by
  induction r with
  | nil => intro m k _; rfl
  | cons p rest ih =>
    intro m k hk
    obtain ⟨a, b⟩ := p
    have hka : k ≠ a := by
      intro heq
      exact hk (by simp [hmKeys, heq])
    have hkrest : k ∉ hmKeys rest := by
      intro hmem
      exact hk (by simp [hmKeys] at hmem ⊢; exact Or.inr hmem)
    rw [hmExtend_cons, ih (hmInsert m a b) k hkrest, hmGet_insert_ne m a k b hka]

theorem mem_hmKeys_extend {V : Type} (r : List (String × V)) :
    ∀ (m : List (String × V)) (k : String),
      k ∈ hmKeys (hmExtend m r) ↔ k ∈ hmKeys m ∨ k ∈ hmKeys r := by
  induction r with
  | nil => intro m k; simp [hmExtend_nil, hmKeys]
  | cons p rest ih =>
    intro m k
    obtain ⟨a, b⟩ := p
    rw [hmExtend_cons, ih (hmInsert m a b) k, mem_hmKeys_insert]
    constructor
    · rintro ((rfl | h) | h)
      · exact Or.inr (by simp [hmKeys])
      · exact Or.inl h
      · exact Or.inr (by simp [hmKeys] at h ⊢; exact Or.inr h)
    · rintro (h | h)
      · exact Or.inl (Or.inr h)
      · rcases (by simpa [hmKeys] using h : k = a ∨ k ∈ hmKeys rest) with rfl | h'
        · exact Or.inl (Or.inl rfl)
        · exact Or.inr h'

theorem hmGet_extend_mem {V : Type} (r : List (String × V)) :
    ∀ (m : List (String × V)) (k : String) (v : V),
      (hmKeys r).Nodup → hmGet r k = some v → hmGet (hmExtend m r) k = some v := by
  induction r with
  | nil => intro m k v _ h; exact absurd h (by simp [hmGet_nil])
  | cons p rest ih =>
    intro m k v hnd hget
    obtain ⟨a, b⟩ := p
    have hnd' : a ∉ hmKeys rest ∧ (hmKeys rest).Nodup := by
      simpa [hmKeys] using hnd
    by_cases hka : k = a
    · rw [hka] at hget ⊢
      rw [hmGet_cons, if_pos rfl] at hget
      rw [hmExtend_cons, hmGet_extend_not_mem rest (hmInsert m a b) a hnd'.1,
        hmGet_insert_self]
      exact hget
    · rw [hmGet_cons, if_neg hka] at hget
      rw [hmExtend_cons]
      exact ih (hmInsert m a b) k v hnd'.2 hget

/-! ## Data model (`main.rs` struct definitions)

`ChapterGlossary` mirrors the Rust struct of the same name; its `terms`
field is a `HashMap<String, String>` modelled as above. `AnalysisResponse`
mirrors the Pass 1 response struct. -/

structure ChapterGlossary where
  chapter_name : String
  summary : String
  terms : List (String × String)
  deriving DecidableEq

instance : Inhabited ChapterGlossary := ⟨⟨"", "", []⟩⟩

structure AnalysisResponse where
  summary : String
  new_glossary : List (String × String)
  deriving DecidableEq

/-- Content of one glossary snapshot file: either a record that
`serde_json::from_reader` parses back into a `ChapterGlossary`, or a file
that exists but cannot be opened or parsed (`corrupt`). -/
inductive FileContent where
  | good (g : ChapterGlossary)
  | corrupt
  deriving DecidableEq

/-- Embedding of `load_glossary` (main.rs:67-75): if the snapshot file
exists, opening/parsing failures are swallowed by `.ok()?` and become
`none`; if the file does not exist the result is `none` as well. -/
def load_glossary (gfs : List (String × FileContent)) (file_name : String) :
    Option ChapterGlossary :=
  match hmGet gfs file_name with
  | none => none
  | some (FileContent.good g) => some g
  | some FileContent.corrupt => none

/-- Embedding of `save_glossary` (main.rs:78-86), success case: the
snapshot for `file_name` is (over)written with a record that parses back
to `data`. -/
def save_glossary (gfs : List (String × FileContent)) (file_name : String)
    (data : ChapterGlossary) : List (String × FileContent) :=
  hmInsert gfs file_name (FileContent.good data)

/-! ## Claims C3, C6, C7 -/

/-- Claim C3: for every prior glossary `G` and analysis result `R`, the
merged table (`current_terms = previous.terms.clone();
current_terms.extend(analysis.new_glossary)`, main.rs:131-133) contains
every key of `G` and every key of `R` and no others; a key absent from `R`
keeps `G`'s value, and a key of `R` gets `R`'s value. The `Nodup`
hypothesis is the `HashMap` unique-key invariant on `R`. -/
theorem merge_C3 (G R : List (String × String)) (hR : (hmKeys R).Nodup) :
    (∀ k, k ∈ hmKeys (hmExtend G R) ↔ k ∈ hmKeys G ∨ k ∈ hmKeys R)
    ∧ (∀ k, k ∉ hmKeys R → hmGet (hmExtend G R) k = hmGet G k)
    ∧ (∀ k v, hmGet R k = some v → hmGet (hmExtend G R) k = some v) := by
  refine ⟨fun k => mem_hmKeys_extend R G k, fun k hk => hmGet_extend_not_mem R G k hk,
    fun k v hv => hmGet_extend_mem R G k v hR hv⟩

def testG : List (String × String) := [("a", "1"), ("b", "2")]

def testR : List (String × String) := [("b", "3"), ("c", "4")]

theorem merge_C3_w :
    ("c" ∈ hmKeys (hmExtend testG testR) ↔ "c" ∈ hmKeys testG ∨ "c" ∈ hmKeys testR)
    ∧ hmGet (hmExtend testG testR) "a" = hmGet testG "a"
    ∧ hmGet (hmExtend testG testR) "b" = some "3" :=
  ⟨(merge_C3 testG testR (by decide)).1 "c",
    (merge_C3 testG testR (by decide)).2.1 "a" (by decide),
    (merge_C3 testG testR (by decide)).2.2 "b" "3" (by decide)⟩

/-- Claim C6 counterexample: a snapshot file for `"ch1"` exists but is
unparseable, yet `load_glossary` returns `none` — so `none` does not mean
"no snapshot file exists", refuting the claimed equivalence. -/
theorem load_C6_cex :
    hmGet [("ch1", FileContent.corrupt)] "ch1" ≠ none
    ∧ load_glossary [("ch1", FileContent.corrupt)] "ch1" = none := by
  constructor
  · decide
  · rfl

/-- Claim C6, amended: `load_glossary` returns `none` exactly when either
no snapshot file exists for the identifier, or an existing snapshot file
cannot be opened or parsed — open/parse failures are silently converted
into `none` by the `.ok()?` calls, not only the absent-file case. -/
theorem load_C6_amended (gfs : List (String × FileContent)) (id : String) :
    load_glossary gfs id = none
      ↔ (hmGet gfs id = none ∨ hmGet gfs id = some FileContent.corrupt) := by
  unfold load_glossary
  rcases h : hmGet gfs id with _ | c
  · simp
  · cases c <;> simp

/-- Claim C7: saving a glossary under `id` and loading `id` back yields
`some` glossary structurally equal to the saved one (same chapter name,
summary and term mapping). -/
theorem save_load_C7 (gfs : List (String × FileContent)) (id : String)
    (G : ChapterGlossary) :
    load_glossary (save_glossary gfs id G) id = some G := by
  unfold load_glossary save_glossary
  rw [hmGet_insert_self]

/-! ## String sanitization (main.rs:122-126)

`raw_resp.trim().trim_start_matches("```json").trim_start_matches("```")
.trim_end_matches("```")` is modelled over `List Char`. Rust's
`trim_start_matches`/`trim_end_matches` remove the pattern repeatedly;
`trim` removes whitespace from both ends (the ASCII whitespace characters
relevant here). -/

def isWs (c : Char) : Bool :=
  c == ' ' || c == '\t' || c == '\n' || c == '\r'

/-- The backtick character, obtained from a string literal. -/
def bt : Char := ("`".data).headD 'x'

def fence : List Char := "```".data

def fenceJson : List Char := "```json".data

/-- Pattern-is-a-prefix test used by the `trim_*_matches` models. -/
def leadsWith : List Char → List Char → Bool
  | [], _ => true
  | _ :: _, [] => false
  | a :: pat, b :: s => a == b && leadsWith pat s

/-- Fuelled repeated prefix-stripping; fuel `s.length` always suffices. -/
def tsmFuel (pat : List Char) : Nat → List Char → List Char
  | 0, s => s
  | fuel + 1, s =>
    if pat ≠ [] ∧ leadsWith pat s = true then tsmFuel pat fuel (s.drop pat.length)
    else s

/-- Model of Rust `str::trim_start_matches` (pattern repeatedly removed). -/
def trimStartMatchesList (pat s : List Char) : List Char := tsmFuel pat s.length s

/-- Model of Rust `str::trim_end_matches` (pattern repeatedly removed from
the end), via reversal. -/
def trimEndMatchesList (pat s : List Char) : List Char :=
  (trimStartMatchesList pat.reverse s.reverse).reverse

/-- Model of Rust `str::trim`. -/
def trimList (s : List Char) : List Char :=
  ((s.dropWhile isWs).reverse.dropWhile isWs).reverse

/-- The sanitization chain applied to the raw Pass 1 response
(main.rs:122-126), in source order. -/
def cleanJsonList (raw : List Char) : List Char :=
  trimEndMatchesList fence
    (trimStartMatchesList fence (trimStartMatchesList fenceJson (trimList raw)))

def cleanJsonStr (raw : String) : String := String.mk (cleanJsonList raw.data)

theorem leadsWith_append (pat r : List Char) : leadsWith pat (pat ++ r) = true := by
  induction pat with
  | nil => rfl
  | cons a pat ih => simp [leadsWith, ih]

theorem leadsWith_length {pat s : List Char} (h : leadsWith pat s = true) :
    pat.length ≤ s.length := by
  induction pat generalizing s with
  | nil => simp
  | cons a pat ih =>
    cases s with
    | nil => exact absurd h (by simp [leadsWith])
    | cons b s =>
      simp only [leadsWith, Bool.and_eq_true] at h
      simpa using ih h.2

theorem leadsWith_of_append {p q s : List Char} (h : leadsWith (p ++ q) s = true) :
    leadsWith p s = true := by
  induction p generalizing s with
  | nil => rfl
  | cons a p ih =>
    cases s with
    | nil => exact absurd h (by simp [leadsWith])
    | cons b t =>
      simp only [List.cons_append, leadsWith, Bool.and_eq_true] at h ⊢
      exact ⟨h.1, ih h.2⟩

theorem tsmFuel_succ (pat : List Char) (f : Nat) (s : List Char) :
    tsmFuel pat (f + 1) s =
      if pat ≠ [] ∧ leadsWith pat s = true then tsmFuel pat f (s.drop pat.length)
      else s := rfl

theorem tsmFuel_nil (pat : List Char) (f : Nat) : tsmFuel pat f [] = [] := by
  cases f with
  | zero => rfl
  | succ f =>
    cases pat with
    | nil => simp [tsmFuel_succ]
    | cons a p => simp [tsmFuel_succ, leadsWith]

theorem tsmFuel_irrel (pat : List Char) :
    ∀ f₁ f₂ s, s.length ≤ f₁ → s.length ≤ f₂ →
      tsmFuel pat f₁ s = tsmFuel pat f₂ s := by
  intro f₁
  induction f₁ with
  | zero =>
    intro f₂ s h1 _
    have hs : s = [] := List.eq_nil_of_length_eq_zero (Nat.le_zero.mp h1)
    subst hs
    rw [tsmFuel_nil, tsmFuel_nil]
  | succ f ih =>
    intro f₂ s h1 h2
    rw [tsmFuel_succ]
    by_cases hc : pat ≠ [] ∧ leadsWith pat s = true
    · rw [if_pos hc]
      have hplen : 0 < pat.length := List.length_pos.mpr hc.1
      have hslen : pat.length ≤ s.length := leadsWith_length hc.2
      cases f₂ with
      | zero => exact absurd h2 (by omega)
      | succ f₂' =>
        rw [tsmFuel_succ, if_pos hc]
        have hd : (s.drop pat.length).length = s.length - pat.length := by simp
        exact ih f₂' (s.drop pat.length) (by omega) (by omega)
    · rw [if_neg hc]
      cases f₂ with
      | zero => rfl
      | succ f₂' => rw [tsmFuel_succ, if_neg hc]

theorem tsm_not_leads (pat s : List Char) (h : leadsWith pat s = false) :
    trimStartMatchesList pat s = s := by
  unfold trimStartMatchesList
  cases s with
  | nil => rfl
  | cons c t =>
    show tsmFuel pat (t.length + 1) (c :: t) = c :: t
    rw [tsmFuel_succ, if_neg]
    intro hc
    rw [h] at hc
    exact absurd hc.2 (by simp)

theorem tsm_step (pat r : List Char) (hp : pat ≠ []) :
    trimStartMatchesList pat (pat ++ r) = trimStartMatchesList pat r := by
  unfold trimStartMatchesList
  have hplen : 0 < pat.length := List.length_pos.mpr hp
  obtain ⟨n, hn⟩ : ∃ n, (pat ++ r).length = n + 1 :=
    ⟨(pat ++ r).length - 1, by simp; omega⟩
  rw [hn, tsmFuel_succ, if_pos ⟨hp, leadsWith_append pat r⟩, List.drop_left]
  have hlen : (pat ++ r).length = pat.length + r.length := by simp
  exact tsmFuel_irrel pat n r.length r (by omega) (Nat.le_refl _)

theorem dropWhile_eq_self_of_head (p : Char → Bool) (l : List Char)
    (h : ∀ c, l.head? = some c → p c = false) : l.dropWhile p = l := by
  cases l with
  | nil => rfl
  | cons c t => simp [List.dropWhile_cons, h c rfl]

theorem trimList_eq_self (l : List Char)
    (h1 : ∀ c, l.head? = some c → isWs c = false)
    (h2 : ∀ c, l.getLast? = some c → isWs c = false) : trimList l = l := by
  unfold trimList
  rw [dropWhile_eq_self_of_head isWs l h1]
  rw [dropWhile_eq_self_of_head isWs l.reverse
    (fun c hc => h2 c (by rwa [List.head?_reverse] at hc))]
  exact List.reverse_reverse l

theorem isWs_bt : isWs bt = false := by decide

theorem isWs_nl : isWs '\n' = true := by decide

theorem fence_eq : fence = [bt, bt, bt] := by decide

theorem fenceJson_eq : fenceJson = [bt, bt, bt, 'j', 's', 'o', 'n'] := by decide

theorem trimList_wrap (s : List Char)
    (h1 : ∀ c, s.head? = some c → isWs c = false)
    (h2 : ∀ c, s.getLast? = some c → isWs c = false) :
    trimList ('\n' :: (s ++ ['\n'])) = s := by
  unfold trimList
  rw [show List.dropWhile isWs ('\n' :: (s ++ ['\n'])) =
      List.dropWhile isWs (s ++ ['\n']) from by simp [List.dropWhile_cons, isWs_nl]]
  cases s with
  | nil => rfl
  | cons c t =>
    rw [show List.dropWhile isWs ((c :: t) ++ ['\n']) = c :: (t ++ ['\n']) from by
      simp [List.dropWhile_cons, h1 c rfl]]
    have hrv : (c :: (t ++ ['\n'])).reverse = '\n' :: (c :: t).reverse := by simp
    rw [hrv, show List.dropWhile isWs ('\n' :: (c :: t).reverse) =
      List.dropWhile isWs ((c :: t).reverse) from by simp [List.dropWhile_cons, isWs_nl]]
    rw [dropWhile_eq_self_of_head isWs ((c :: t).reverse)
      (fun d hd => h2 d (by rwa [List.head?_reverse] at hd))]
    exact List.reverse_reverse _

/-- Boolean edge condition on an optional boundary character: not
whitespace and not a backtick (the claim's hypothesis on the body). -/
def chOk : Option Char → Bool
  | none => true
  | some c => !isWs c && !(c == bt)

theorem chOk_isWs {o : Option Char} (h : chOk o = true) :
    ∀ c, o = some c → isWs c = false := by
  intro c hc
  rw [hc] at h
  simp only [chOk, Bool.and_eq_true, Bool.not_eq_true'] at h
  exact h.1

/-- Claim C9: the Pass 1 sanitization strips surrounding whitespace and
surrounding code-fence markers. Part one: for a body `s` that neither
begins nor ends with a backtick or whitespace, sanitizing
`"```json" + newline + s + newline + "```"` yields `s` up to surrounding
whitespace. Part two: a fence-free, already-trimmed string is returned
unchanged. -/
theorem cleanJson_C9 :
    (∀ s : List Char, chOk s.head? = true → chOk s.getLast? = true →
      trimList (cleanJsonList (fenceJson ++ '\n' :: (s ++ '\n' :: fence))) = s)
    ∧ (∀ s : List Char, trimList s = s → leadsWith fence s = false →
      leadsWith fence s.reverse = false → cleanJsonList s = s) := by
  constructor
  · intro s ha hb
    have hbne : (bt == '\n') = false := by decide
    have hhead : ∀ c, (fenceJson ++ '\n' :: (s ++ '\n' :: fence)).head? = some c →
        isWs c = false := by
      intro c hc
      rw [show (fenceJson ++ '\n' :: (s ++ '\n' :: fence)).head? = some bt from by
        rw [fenceJson_eq]; rfl] at hc
      cases hc
      exact isWs_bt
    have hsplit : fenceJson ++ '\n' :: (s ++ '\n' :: fence) =
        (fenceJson ++ '\n' :: (s ++ ['\n', bt, bt])) ++ [bt] := by
      rw [fence_eq]; simp
    have hlast : ∀ c, (fenceJson ++ '\n' :: (s ++ '\n' :: fence)).getLast? = some c →
        isWs c = false := by
      intro c hc
      rw [hsplit, List.getLast?_concat] at hc
      cases hc
      exact isWs_bt
    have e0 : trimList (fenceJson ++ '\n' :: (s ++ '\n' :: fence)) =
        fenceJson ++ '\n' :: (s ++ '\n' :: fence) :=
      trimList_eq_self _ hhead hlast
    have e1 : trimStartMatchesList fenceJson (fenceJson ++ '\n' :: (s ++ '\n' :: fence)) =
        trimStartMatchesList fenceJson ('\n' :: (s ++ '\n' :: fence)) :=
      tsm_step _ _ (by decide)
    have e2 : trimStartMatchesList fenceJson ('\n' :: (s ++ '\n' :: fence)) =
        '\n' :: (s ++ '\n' :: fence) :=
      tsm_not_leads _ _ (by rw [fenceJson_eq]; simp [leadsWith, hbne])
    have e3 : trimStartMatchesList fence ('\n' :: (s ++ '\n' :: fence)) =
        '\n' :: (s ++ '\n' :: fence) :=
      tsm_not_leads _ _ (by rw [fence_eq]; simp [leadsWith, hbne])
    have hrev : ('\n' :: (s ++ '\n' :: fence)).reverse =
        fence ++ ('\n' :: (s.reverse ++ ['\n'])) := by
      rw [fence_eq]; simp
    have e4 : trimEndMatchesList fence ('\n' :: (s ++ '\n' :: fence)) =
        '\n' :: (s ++ ['\n']) := by
      unfold trimEndMatchesList
      rw [show fence.reverse = fence from by decide, hrev,
        tsm_step fence _ (by decide),
        tsm_not_leads _ _ (by rw [fence_eq]; simp [leadsWith, hbne])]
      simp
    show trimList (trimEndMatchesList fence (trimStartMatchesList fence
      (trimStartMatchesList fenceJson
        (trimList (fenceJson ++ '\n' :: (s ++ '\n' :: fence)))))) = s
    rw [e0, e1, e2, e3, e4]
    exact trimList_wrap s (chOk_isWs ha) (chOk_isWs hb)
  · intro s ht hf hr
    have hfj : leadsWith fenceJson s = false := by
      cases h' : leadsWith fenceJson s with
      | false => rfl
      | true =>
        rw [show fenceJson = fence ++ "json".data from by decide] at h'
        rw [leadsWith_of_append h'] at hf
        exact absurd hf (by simp)
    show trimEndMatchesList fence (trimStartMatchesList fence
      (trimStartMatchesList fenceJson (trimList s))) = s
    rw [ht, tsm_not_leads fenceJson s hfj, tsm_not_leads fence s hf]
    unfold trimEndMatchesList
    rw [show fence.reverse = fence from by decide, tsm_not_leads fence s.reverse hr,
      List.reverse_reverse]

theorem cleanJson_C9_w :
    trimList (cleanJsonList (fenceJson ++ '\n' :: ("abc".data ++ '\n' :: fence)))
      = "abc".data
    ∧ cleanJsonList "abc".data = "abc".data :=
  ⟨cleanJson_C9.1 "abc".data (by decide) (by decide),
    cleanJson_C9.2 "abc".data (by decide) (by decide) (by decide)⟩

/-! ## Resume scan (main.rs:223-244)

The auto-detect loop over the sorted chapter list. Each chapter is
abstracted to the pair of existence checks computed in the loop body:
first component `output_exists`, second component `glossary_exists`.
`suggestedIndexAux total i acc rest` mirrors the loop with `i` the current
index, `acc` the mutable `suggested_index`, and `total = files.len()`. -/

def suggestedIndexAux (total : Nat) : Nat → Nat → List (Bool × Bool) → Nat
  | _, acc, [] => acc
  | i, acc, ch :: rest =>
    if ch.1 = false ∨ ch.2 = false then i
    else suggestedIndexAux total (i + 1) (if i = total - 1 then total else acc) rest

def suggestedIndex (chapters : List (Bool × Bool)) : Nat :=
  suggestedIndexAux chapters.length 0 0 chapters

theorem suggestedIndexAux_nil (total i acc : Nat) :
    suggestedIndexAux total i acc [] = acc := rfl

theorem suggestedIndexAux_cons (total i acc : Nat) (ch : Bool × Bool)
    (rest : List (Bool × Bool)) :
    suggestedIndexAux total i acc (ch :: rest) =
      if ch.1 = false ∨ ch.2 = false then i
      else suggestedIndexAux total (i + 1) (if i = total - 1 then total else acc) rest :=
  rfl

theorem suggestedIndexAux_all (total : Nat) :
    ∀ (rest : List (Bool × Bool)) (i acc : Nat), total = i + rest.length → rest ≠ [] →
      (∀ p ∈ rest, p.1 = true ∧ p.2 = true) →
      suggestedIndexAux total i acc rest = total := by
  intro rest
  induction rest with
  | nil => intro i acc _ h; exact absurd rfl h
  | cons ch rest ih =>
    intro i acc htot _ hall
    have hch := hall ch (List.mem_cons_self ch rest)
    have hcond : ¬ (ch.1 = false ∨ ch.2 = false) := by
      rw [hch.1, hch.2]; simp
    cases rest with
    | nil =>
      have hlen : total = i + 1 := by simpa using htot
      rw [suggestedIndexAux_cons, if_neg hcond, if_pos (by omega),
        suggestedIndexAux_nil]
    | cons ch2 rest2 =>
      have hlen : total = i + (rest2.length + 2) := by
        simpa [Nat.add_comm, Nat.add_assoc, Nat.add_left_comm] using htot
      rw [suggestedIndexAux_cons, if_neg hcond, if_neg (by omega)]
      exact ih (i + 1) _ (by simp; omega) (by simp)
        (fun p hp => hall p (List.mem_cons_of_mem _ hp))

theorem suggestedIndexAux_first (total : Nat) :
    ∀ (rest : List (Bool × Bool)) (i acc k : Nat) (hk : k < rest.length),
      ((rest.get ⟨k, hk⟩).1 = false ∨ (rest.get ⟨k, hk⟩).2 = false) →
      (∀ j (hj : j < k), (rest.get ⟨j, Nat.lt_trans hj hk⟩).1 = true
        ∧ (rest.get ⟨j, Nat.lt_trans hj hk⟩).2 = true) →
      suggestedIndexAux total i acc rest = i + k := by
  intro rest
  induction rest with
  | nil => intro i acc k hk; exact absurd hk (by simp)
  | cons ch rest ih =>
    intro i acc k hk hbad hgood
    cases k with
    | zero =>
      have hbad' : ch.1 = false ∨ ch.2 = false := hbad
      rw [suggestedIndexAux_cons, if_pos hbad']
      omega
    | succ k' =>
      have hch : ch.1 = true ∧ ch.2 = true := hgood 0 (Nat.succ_pos k')
      rw [suggestedIndexAux_cons, if_neg (by rw [hch.1, hch.2]; simp)]
      rw [ih (i + 1) _ k' (by simpa using hk) hbad
        (fun j hj => hgood (j + 1) (Nat.succ_lt_succ hj))]
      omega

/-- Claim C2: the suggested resume index is the index of the first chapter
missing its translated output file or its glossary snapshot file (first
conjunct), and if every chapter in an `n`-chapter list has both artifacts
it equals `n` (second conjunct). A chapter is the pair
`(output_exists, glossary_exists)`. -/
theorem suggestedIndex_C2 (chapters : List (Bool × Bool)) :
    (∀ i (hi : i < chapters.length),
        ((chapters.get ⟨i, hi⟩).1 = false ∨ (chapters.get ⟨i, hi⟩).2 = false) →
        (∀ j (hj : j < i), (chapters.get ⟨j, Nat.lt_trans hj hi⟩).1 = true
          ∧ (chapters.get ⟨j, Nat.lt_trans hj hi⟩).2 = true) →
        suggestedIndex chapters = i)
    ∧ ((∀ p ∈ chapters, p.1 = true ∧ p.2 = true) →
        suggestedIndex chapters = chapters.length) := by
  constructor
  · intro i hi hbad hgood
    have h := suggestedIndexAux_first chapters.length chapters 0 0 i hi hbad hgood
    simpa [suggestedIndex] using h
  · intro hall
    cases chapters with
    | nil => rfl
    | cons ch rest =>
      exact suggestedIndexAux_all _ (ch :: rest) 0 0 (by simp) (by simp) hall

theorem suggestedIndex_C2_w :
    suggestedIndex [(true, true), (false, true)] = 1
    ∧ suggestedIndex [(true, true), (true, true)] = 2 :=
  ⟨(suggestedIndex_C2 [(true, true), (false, true)]).1 1 (by decide) (by decide)
      (fun j hj => by
        have hj0 : j = 0 := by omega
        subst hj0
        exact ⟨rfl, rfl⟩),
    (suggestedIndex_C2 [(true, true), (true, true)]).2 (by decide)⟩

/-! ## Seed glossary loading (main.rs:302-332)

`computeSeed` abstracts step 5 of `main`: if the start index is positive,
the seed is loaded from the snapshot of the chapter at index
`start - 1` (the file stem of the PREVIOUS file); if that snapshot is
absent the operator may explicitly confirm starting with an empty
glossary (`confirmEmpty`), otherwise the run is cancelled (`none`).
Starting at index 0 uses `ChapterGlossary::default()`. -/

def computeSeed (gfs : List (String × FileContent)) (stems : List String)
    (start : Nat) (confirmEmpty : Bool) : Option ChapterGlossary :=
  if 0 < start then
    match stems.get? (start - 1) with
    | none => none
    | some prevStem =>
      match load_glossary gfs prevStem with
      | some g => some g
      | none => if confirmEmpty then some default else none
  else some default

/-- Claim C5: starting at index 0 seeds the run with the empty default
glossary; starting at index `start > 0` seeds from the snapshot of
chapter `start - 1` whenever that snapshot loads, and the seed depends
only on the store entry of chapter `start - 1` — in particular never on
chapter `start`'s own snapshot. -/
theorem computeSeed_C5 (gfs gfs' : List (String × FileContent))
    (stems : List String) (start : Nat) (c : Bool) :
    computeSeed gfs stems 0 c = some default
    ∧ (∀ prevStem, start ≠ 0 → stems.get? (start - 1) = some prevStem →
        ((∀ g, load_glossary gfs prevStem = some g →
            computeSeed gfs stems start c = some g)
          ∧ (hmGet gfs' prevStem = hmGet gfs prevStem →
            computeSeed gfs' stems start c = computeSeed gfs stems start c))) := by
  constructor
  · rfl
  · intro prevStem hs hget
    have hpos : 0 < start := Nat.pos_of_ne_zero hs
    constructor
    · intro g hg
      unfold computeSeed
      rw [if_pos hpos]
      simp only [hget, hg]
    · intro heq
      have hload : load_glossary gfs' prevStem = load_glossary gfs prevStem := by
        unfold load_glossary
        rw [heq]
      unfold computeSeed
      rw [if_pos hpos, if_pos hpos]
      simp only [hget, hload]

def seedStore : List (String × FileContent) :=
  [("ch1", FileContent.good ⟨"ch1", "sum", [("a", "A")]⟩)]

theorem computeSeed_C5_w :
    computeSeed seedStore ["ch1", "ch2"] 0 false = some default
    ∧ computeSeed seedStore ["ch1", "ch2"] 1 false
      = some ⟨"ch1", "sum", [("a", "A")]⟩ :=
  ⟨(computeSeed_C5 seedStore seedStore ["ch1", "ch2"] 1 false).1,
    ((computeSeed_C5 seedStore seedStore ["ch1", "ch2"] 1 false).2 "ch1"
        (by decide) (by decide)).1 ⟨"ch1", "sum", [("a", "A")]⟩ (by decide)⟩

/-! ## Start-index prompt resolution (main.rs:270-294)

The console input is trimmed; an empty line accepts the suggestion (or
ends the run if everything is complete); otherwise `parse::<usize>()` is
attempted and only a value in `1..=n` is accepted as a 1-based index,
anything else falling back to the suggestion. `parseUsize` models Rust's
unsigned integer parsing: optional leading `+`, one or more ASCII digits,
value below `2^64`. -/

def rustTrim (s : String) : String := String.mk (trimList s.data)

def parseUsize (s : String) : Option Nat :=
  match s.data with
  | [] => none
  | c :: rest =>
    let ds := if c = '+' then rest else c :: rest
    if ds ≠ [] ∧ ds.all (fun d => d.isDigit) then
      let v := ds.foldl (fun a d => a * 10 + (d.toNat - 48)) 0
      if v < 2 ^ 64 then some v else none
    else none

inductive StartDecision where
  | quit
  | start (idx : Nat)
  deriving DecidableEq

/-- Embedding of main.rs:274-294: resolve the console input at the
start-index prompt into either a normal early exit (`quit`) or a 0-based
start index. -/
def resolveStart (inputLine : String) (suggested n : Nat) : StartDecision :=
  if rustTrim inputLine = "" then
    if suggested ≥ n then StartDecision.quit else StartDecision.start suggested
  else
    match parseUsize (rustTrim inputLine) with
    | some k =>
      if 0 < k ∧ k ≤ n then StartDecision.start (k - 1)
      else if suggested ≥ n then StartDecision.quit
      else StartDecision.start suggested
    | none =>
      if suggested ≥ n then StartDecision.quit else StartDecision.start suggested

/-- Claim C10: for every non-empty console input that does not parse as an
integer in `1..=n`, the program does not abort: it falls back to the
suggested index (`start suggested`) when `suggested < n`, and terminates
normally without processing any chapter (`quit`) when `suggested = n`. -/
theorem resolveStart_C10 (inputLine : String) (suggested n : Nat)
    (_hne : inputLine ≠ "")
    (hbad : ∀ k, parseUsize (rustTrim inputLine) = some k → ¬(1 ≤ k ∧ k ≤ n)) :
    (suggested = n → resolveStart inputLine suggested n = StartDecision.quit)
    ∧ (suggested < n → resolveStart inputLine suggested n = StartDecision.start suggested) := by
  have hmain : resolveStart inputLine suggested n =
      if suggested ≥ n then StartDecision.quit else StartDecision.start suggested := by
    unfold resolveStart
    by_cases he : rustTrim inputLine = ""
    · rw [if_pos he]
    · rw [if_neg he]
      cases hp : parseUsize (rustTrim inputLine) with
      | none => simp only
      | some k =>
        simp only
        rw [if_neg (fun hc => hbad k hp ⟨hc.1, hc.2⟩)]
  constructor
  · intro h
    rw [hmain, if_pos (Nat.le_of_eq h.symm)]
  · intro h
    rw [hmain, if_neg (by omega)]

theorem resolveStart_C10_w :
    resolveStart "abc" 2 2 = StartDecision.quit
    ∧ resolveStart "0" 1 3 = StartDecision.start 1 :=
  ⟨(resolveStart_C10 "abc" 2 2 (by decide)
      (fun k hk => by
        rw [show parseUsize (rustTrim "abc") = none from by decide] at hk
        exact absurd hk (by simp))).1 rfl,
    (resolveStart_C10 "0" 1 3 (by decide)
      (fun k hk => by
        rw [show parseUsize (rustTrim "0") = some 0 from by decide] at hk
        cases hk
        omega)).2 (by omega)⟩

/-! ## Two-pass chapter processing (main.rs:90-179)

`process_chapter` is embedded with the outcomes of its fallible external
steps supplied by a `ChapterOracle`: the chapter file read, the two
`llm.generate` calls, `serde_json` parsing of the sanitized Pass 1
response, the glossary save and the output write. The prompt strings
rendered by minijinja carry no information relevant to any claim and are
not modelled; `jsonModes` records, in order, the `json_mode` argument of
each `llm.generate` call actually made (main.rs:119 and main.rs:166). -/

inductive ProcError where
  | readErr
  | backendErr
  | parseErr
  | storageErr
  deriving DecidableEq

/-- The file-system state touched by the pipeline: glossary snapshot files
keyed by file stem, translated output files keyed by file name. -/
structure FsState where
  glossaries : List (String × FileContent)
  outputs : List (String × String)
  deriving DecidableEq

structure ChapterOracle where
  readResult : Option String
  pass1 : Option String
  parse1 : String → Option AnalysisResponse
  saveOk : Bool
  pass2 : Option String
  writeOk : Bool

structure ProcOutcome where
  fs : FsState
  result : Except ProcError ChapterGlossary
  jsonModes : List Bool

def process_chapter (o : ChapterOracle) (fs : FsState) (file_stem file_name : String)
    (previous_glossary : ChapterGlossary) : ProcOutcome :=
  match o.readResult with
  | none => ⟨fs, Except.error ProcError.readErr, []⟩
  | some _content =>
    match o.pass1 with
    | none => ⟨fs, Except.error ProcError.backendErr, [false]⟩
    | some raw_resp =>
      match o.parse1 (cleanJsonStr raw_resp) with
      | none => ⟨fs, Except.error ProcError.parseErr, [false]⟩
      | some analysis =>
        let current_terms := hmExtend previous_glossary.terms analysis.new_glossary
        let current_chapter_data : ChapterGlossary :=
          ⟨file_stem, analysis.summary, current_terms⟩
        if o.saveOk then
          let fs1 : FsState :=
            ⟨save_glossary fs.glossaries file_stem current_chapter_data, fs.outputs⟩
          match o.pass2 with
          | none => ⟨fs1, Except.error ProcError.backendErr, [false, false]⟩
          | some t =>
            let translated_text := t.replace "\\n" "\n"
            if o.writeOk then
              ⟨⟨fs1.glossaries, hmInsert fs1.outputs file_name translated_text⟩,
                Except.ok current_chapter_data, [false, false]⟩
            else ⟨fs1, Except.error ProcError.storageErr, [false, false]⟩
        else ⟨fs, Except.error ProcError.storageErr, [false]⟩

/-- Claim C1 (refuted; the code passes `false` at both call sites): every
`llm.generate` call made by `process_chapter` has `json_mode = false` —
including the Pass 1 analysis call at main.rs:119, which the specification
says should use `json_mode = true`. The trace is `[]`, `[false]` or
`[false, false]` depending on how far processing gets; `true` never
occurs. -/
theorem process_chapter_C1 (o : ChapterOracle) (fs : FsState)
    (file_stem file_name : String) (prev : ChapterGlossary) :
    (process_chapter o fs file_stem file_name prev).jsonModes = []
    ∨ (process_chapter o fs file_stem file_name prev).jsonModes = [false]
    ∨ (process_chapter o fs file_stem file_name prev).jsonModes = [false, false] := by
  rcases h1 : o.readResult with _ | content
  · simp [process_chapter, h1]
  rcases h2 : o.pass1 with _ | raw
  · simp [process_chapter, h1, h2]
  rcases h3 : o.parse1 (cleanJsonStr raw) with _ | analysis
  · simp [process_chapter, h1, h2, h3]
  rcases h4 : o.saveOk with _ | _
  · simp [process_chapter, h1, h2, h3, h4]
  rcases h5 : o.pass2 with _ | t
  · simp [process_chapter, h1, h2, h3, h4, h5]
  rcases h6 : o.writeOk with _ | _
  · simp [process_chapter, h1, h2, h3, h4, h5, h6]
  · simp [process_chapter, h1, h2, h3, h4, h5, h6]

theorem load_save_self (gfs : List (String × FileContent)) (id : String)
    (G : ChapterGlossary) :
    load_glossary (save_glossary gfs id G) id = some G := by
  unfold load_glossary save_glossary
  rw [hmGet_insert_self]

def okParse : String → Option AnalysisResponse := fun _ => some ⟨"S", [("a", "A")]⟩

def oraclePass2Fail : ChapterOracle :=
  ⟨some "text", some "{}", okParse, true, none, true⟩

def fsStale : FsState := ⟨[], [("ch1.txt", "stale")]⟩

def fsEmpty : FsState := ⟨[], []⟩

/-- Claim C4 counterexample: start from a state where chapter `ch1`
already has a (stale) translated output but no glossary snapshot — a
state the resume scan treats as incomplete. Pass 1 succeeds, Pass 2's
translation call fails, yet the output artifact for the chapter DOES
exist afterwards (the stale file; `process_chapter` never removes
outputs), contradicting the claim that it does not exist. -/
theorem process_chapter_C4_cex :
    (process_chapter oraclePass2Fail fsStale "ch1" "ch1.txt" default).result.isOk = false
    ∧ load_glossary
        (process_chapter oraclePass2Fail fsStale "ch1" "ch1.txt" default).fs.glossaries
        "ch1" ≠ none
    ∧ hmGet
        (process_chapter oraclePass2Fail fsStale "ch1" "ch1.txt" default).fs.outputs
        "ch1.txt" ≠ none := by
  decide

/-- Claim C4, amended: the merged glossary snapshot is persisted before
Pass 2 begins, so if Pass 1 (analysis call, parse, save) succeeds and
Pass 2 (translation call or output write) fails, then the glossary
snapshot for the chapter exists and loads back as the merged data, the
chapter's output entry is exactly what it was before the run — in
particular the output artifact does not exist if it did not already
exist — and the chapter is reported failed. -/
theorem process_chapter_C4 (o : ChapterOracle) (fs : FsState)
    (file_stem file_name : String) (prev : ChapterGlossary)
    (content raw : String) (analysis : AnalysisResponse)
    (h1 : o.readResult = some content) (h2 : o.pass1 = some raw)
    (h3 : o.parse1 (cleanJsonStr raw) = some analysis) (h4 : o.saveOk = true)
    (h5 : o.pass2 = none ∨ o.writeOk = false) :
    load_glossary (process_chapter o fs file_stem file_name prev).fs.glossaries file_stem
      = some ⟨file_stem, analysis.summary, hmExtend prev.terms analysis.new_glossary⟩
    ∧ hmGet (process_chapter o fs file_stem file_name prev).fs.outputs file_name
      = hmGet fs.outputs file_name
    ∧ (hmGet fs.outputs file_name = none →
        hmGet (process_chapter o fs file_stem file_name prev).fs.outputs file_name = none)
    ∧ (process_chapter o fs file_stem file_name prev).result.isOk = false := by
  rcases h5 with h5 | h5
  · have hred : process_chapter o fs file_stem file_name prev =
        ⟨⟨save_glossary fs.glossaries file_stem
            ⟨file_stem, analysis.summary, hmExtend prev.terms analysis.new_glossary⟩,
          fs.outputs⟩,
          Except.error ProcError.backendErr, [false, false]⟩ := by
      simp only [process_chapter, h1, h2, h3, h4, h5, if_true]
    rw [hred]
    exact ⟨load_save_self _ _ _, rfl, fun h => h, rfl⟩
  · cases hp2 : o.pass2 with
    | none =>
      have hred : process_chapter o fs file_stem file_name prev =
          ⟨⟨save_glossary fs.glossaries file_stem
              ⟨file_stem, analysis.summary, hmExtend prev.terms analysis.new_glossary⟩,
            fs.outputs⟩,
            Except.error ProcError.backendErr, [false, false]⟩ := by
        simp only [process_chapter, h1, h2, h3, h4, hp2, if_true]
      rw [hred]
      exact ⟨load_save_self _ _ _, rfl, fun h => h, rfl⟩
    | some t =>
      have hred : process_chapter o fs file_stem file_name prev =
          ⟨⟨save_glossary fs.glossaries file_stem
              ⟨file_stem, analysis.summary, hmExtend prev.terms analysis.new_glossary⟩,
            fs.outputs⟩,
            Except.error ProcError.storageErr, [false, false]⟩ := by
        simp only [process_chapter, h1, h2, h3, h4, hp2, h5, if_true, Bool.false_eq_true,
          if_false]
      rw [hred]
      exact ⟨load_save_self _ _ _, rfl, fun h => h, rfl⟩

theorem process_chapter_C4_w :
    load_glossary
        (process_chapter oraclePass2Fail fsEmpty "c1" "c1.txt" default).fs.glossaries "c1"
      = some ⟨"c1", "S", hmExtend (default : ChapterGlossary).terms [("a", "A")]⟩
    ∧ hmGet (process_chapter oraclePass2Fail fsEmpty "c1" "c1.txt" default).fs.outputs
        "c1.txt" = hmGet fsEmpty.outputs "c1.txt"
    ∧ (hmGet fsEmpty.outputs "c1.txt" = none →
        hmGet (process_chapter oraclePass2Fail fsEmpty "c1" "c1.txt" default).fs.outputs
          "c1.txt" = none)
    ∧ (process_chapter oraclePass2Fail fsEmpty "c1" "c1.txt" default).result.isOk = false :=
  process_chapter_C4 oraclePass2Fail fsEmpty "c1" "c1.txt" default "text" "{}"
    ⟨"S", [("a", "A")]⟩ rfl rfl rfl rfl (Or.inl rfl)

/-! ## Run loop (main.rs:334-360)

`runLoop` drives `process_chapter` over the chapter files starting from
the start index, threading the running glossary; on `Ok` the returned
glossary becomes the seed of the next chapter, on `Err` the loop breaks
immediately. In interactive mode (`unattended = false`) the operator may
also stop after a successful chapter (`quitAfter`, the `'q'` input).
`count` is the number of chapters on which `process_chapter` was invoked,
`err` the error that broke the loop, if any. -/

structure RunStep where
  oracle : ChapterOracle
  file_stem : String
  file_name : String
  quitAfter : Bool

structure RunResult where
  fs : FsState
  glossary : ChapterGlossary
  count : Nat
  err : Option ProcError

def runLoop (unattended : Bool) : List RunStep → FsState → ChapterGlossary → RunResult
  | [], fs, _g => ⟨fs, _g, 0, none⟩
  | c :: rest, fs, g =>
    match (process_chapter c.oracle fs c.file_stem c.file_name g).result with
    | Except.error e => ⟨(process_chapter c.oracle fs c.file_stem c.file_name g).fs, g, 1, some e⟩
    | Except.ok g' =>
      if unattended = false ∧ c.quitAfter = true then
        ⟨(process_chapter c.oracle fs c.file_stem c.file_name g).fs, g', 1, none⟩
      else
        let rr := runLoop unattended rest (process_chapter c.oracle fs c.file_stem c.file_name g).fs g'
        ⟨rr.fs, rr.glossary, rr.count + 1, rr.err⟩

theorem runLoop_nil (u : Bool) (fs : FsState) (g : ChapterGlossary) :
    runLoop u [] fs g = ⟨fs, g, 0, none⟩ := rfl

theorem runLoop_cons_err (u : Bool) (c : RunStep) (rest : List RunStep) (fs : FsState)
    (g : ChapterGlossary) (e0 : ProcError)
    (hr : (process_chapter c.oracle fs c.file_stem c.file_name g).result
      = Except.error e0) :
    runLoop u (c :: rest) fs g =
      ⟨(process_chapter c.oracle fs c.file_stem c.file_name g).fs, g, 1, some e0⟩ := by
  simp [runLoop, hr]

theorem runLoop_cons_ok (u : Bool) (c : RunStep) (rest : List RunStep) (fs : FsState)
    (g g' : ChapterGlossary)
    (hr : (process_chapter c.oracle fs c.file_stem c.file_name g).result = Except.ok g')
    (hq : ¬(u = false ∧ c.quitAfter = true)) :
    runLoop u (c :: rest) fs g =
      ⟨(runLoop u rest (process_chapter c.oracle fs c.file_stem c.file_name g).fs g').fs,
        (runLoop u rest (process_chapter c.oracle fs c.file_stem c.file_name g).fs g').glossary,
        (runLoop u rest (process_chapter c.oracle fs c.file_stem c.file_name g).fs g').count + 1,
        (runLoop u rest (process_chapter c.oracle fs c.file_stem c.file_name g).fs g').err⟩ := by
  simp [runLoop, hr, hq]

theorem runLoop_cons_quit (u : Bool) (c : RunStep) (rest : List RunStep) (fs : FsState)
    (g g' : ChapterGlossary)
    (hr : (process_chapter c.oracle fs c.file_stem c.file_name g).result = Except.ok g')
    (hq : u = false ∧ c.quitAfter = true) :
    runLoop u (c :: rest) fs g =
      ⟨(process_chapter c.oracle fs c.file_stem c.file_name g).fs, g', 1, none⟩ := by
  simp [runLoop, hr, hq]

theorem process_chapter_glossaries_other (o : ChapterOracle) (fs : FsState)
    (file_stem file_name : String) (prev : ChapterGlossary) (k : String)
    (hk : k ≠ file_stem) :
    hmGet (process_chapter o fs file_stem file_name prev).fs.glossaries k
      = hmGet fs.glossaries k := by
  rcases h1 : o.readResult with _ | content
  · simp [process_chapter, h1]
  rcases h2 : o.pass1 with _ | raw
  · simp [process_chapter, h1, h2]
  rcases h3 : o.parse1 (cleanJsonStr raw) with _ | analysis
  · simp [process_chapter, h1, h2, h3]
  rcases h4 : o.saveOk with _ | _
  · simp [process_chapter, h1, h2, h3, h4]
  rcases h5 : o.pass2 with _ | t
  · simp [process_chapter, h1, h2, h3, h4, h5, save_glossary,
      hmGet_insert_ne _ _ _ _ hk]
  rcases h6 : o.writeOk with _ | _
  · simp [process_chapter, h1, h2, h3, h4, h5, h6, save_glossary,
      hmGet_insert_ne _ _ _ _ hk]
  · simp [process_chapter, h1, h2, h3, h4, h5, h6, save_glossary,
      hmGet_insert_ne _ _ _ _ hk]

theorem process_chapter_outputs_other (o : ChapterOracle) (fs : FsState)
    (file_stem file_name : String) (prev : ChapterGlossary) (k : String)
    (hk : k ≠ file_name) :
    hmGet (process_chapter o fs file_stem file_name prev).fs.outputs k
      = hmGet fs.outputs k := by
  rcases h1 : o.readResult with _ | content
  · simp [process_chapter, h1]
  rcases h2 : o.pass1 with _ | raw
  · simp [process_chapter, h1, h2]
  rcases h3 : o.parse1 (cleanJsonStr raw) with _ | analysis
  · simp [process_chapter, h1, h2, h3]
  rcases h4 : o.saveOk with _ | _
  · simp [process_chapter, h1, h2, h3, h4]
  rcases h5 : o.pass2 with _ | t
  · simp [process_chapter, h1, h2, h3, h4, h5]
  rcases h6 : o.writeOk with _ | _
  · simp [process_chapter, h1, h2, h3, h4, h5, h6]
  · simp [process_chapter, h1, h2, h3, h4, h5, h6,
      hmGet_insert_ne _ _ _ _ hk]

/-- Claim C8: if the run loop stops with an error, the whole run result
equals that of running only the chapters up to and including the failing
one (no later chapter is processed, `take count`), at least one chapter
was attempted, the failing chapter is the one at index `count - 1`, and
the final file-system state agrees with the state obtained before the
failing chapter on every glossary key other than the failing chapter's
stem and every output key other than its file name — previously completed
chapters' artifacts are left unchanged. -/
theorem runLoop_C8 (u : Bool) (steps : List RunStep) (fs : FsState)
    (g : ChapterGlossary) (e : ProcError)
    (h : (runLoop u steps fs g).err = some e) :
    runLoop u steps fs g = runLoop u (steps.take (runLoop u steps fs g).count) fs g
    ∧ 1 ≤ (runLoop u steps fs g).count
    ∧ ∃ failing, steps.get? ((runLoop u steps fs g).count - 1) = some failing
      ∧ (∀ k, k ≠ failing.file_stem →
          hmGet (runLoop u steps fs g).fs.glossaries k
            = hmGet (runLoop u (steps.take ((runLoop u steps fs g).count - 1)) fs g).fs.glossaries k)
      ∧ (∀ k, k ≠ failing.file_name →
          hmGet (runLoop u steps fs g).fs.outputs k
            = hmGet (runLoop u (steps.take ((runLoop u steps fs g).count - 1)) fs g).fs.outputs k) := by
  induction steps generalizing fs g with
  | nil => rw [runLoop_nil] at h; exact absurd h (by simp)
  | cons c rest ih =>
    rcases hr : (process_chapter c.oracle fs c.file_stem c.file_name g).result with e0 | g'
    · have hrl := runLoop_cons_err u c rest fs g e0 hr
      refine ⟨?_, ?_, c, ?_, ?_, ?_⟩
      · rw [hrl]
        dsimp only
        rw [show (c :: rest).take 1 = [c] from rfl, runLoop_cons_err u c [] fs g e0 hr]
      · rw [hrl]
      · rw [hrl]
        rfl
      · intro k hk
        rw [hrl]
        exact process_chapter_glossaries_other _ _ _ _ _ _ hk
      · intro k hk
        rw [hrl]
        exact process_chapter_outputs_other _ _ _ _ _ _ hk
    · by_cases hq : u = false ∧ c.quitAfter = true
      · have hrl := runLoop_cons_quit u c rest fs g g' hr hq
        rw [hrl] at h
        exact absurd h (by simp)
      · have hrl := runLoop_cons_ok u c rest fs g g' hr hq
        have herr : (runLoop u rest
            (process_chapter c.oracle fs c.file_stem c.file_name g).fs g').err = some e := by
          rw [hrl] at h
          exact h
        obtain ⟨ih1, ih2, failing, ihget, ihg, iho⟩ :=
          ih (process_chapter c.oracle fs c.file_stem c.file_name g).fs g' herr
        obtain ⟨m, hm⟩ : ∃ m, (runLoop u rest
            (process_chapter c.oracle fs c.file_stem c.file_name g).fs g').count = m + 1 := by
          refine ⟨(runLoop u rest
            (process_chapter c.oracle fs c.file_stem c.file_name g).fs g').count - 1, ?_⟩
          omega
        refine ⟨?_, ?_, failing, ?_, ?_, ?_⟩
        · rw [hrl]
          dsimp only
          rw [List.take_succ_cons, runLoop_cons_ok u c _ fs g g' hr hq, ← ih1]
        · rw [hrl]
          dsimp only
          omega
        · rw [hrl]
          dsimp only
          rw [Nat.add_sub_cancel, hm, List.get?_cons_succ]
          rw [hm, Nat.add_sub_cancel] at ihget
          exact ihget
        · intro k hk
          rw [hrl]
          dsimp only
          rw [Nat.add_sub_cancel, hm, List.take_succ_cons,
            runLoop_cons_ok u c _ fs g g' hr hq]
          have hg2 := ihg k hk
          rw [hm, Nat.add_sub_cancel] at hg2
          exact hg2
        · intro k hk
          rw [hrl]
          dsimp only
          rw [Nat.add_sub_cancel, hm, List.take_succ_cons,
            runLoop_cons_ok u c _ fs g g' hr hq]
          have ho2 := iho k hk
          rw [hm, Nat.add_sub_cancel] at ho2
          exact ho2

def oracleAllOk : ChapterOracle :=
  ⟨some "text", some "{}", okParse, true, some "out", true⟩

def oracleFailP1 : ChapterOracle :=
  ⟨some "text", none, okParse, true, none, true⟩

def runSteps : List RunStep :=
  [⟨oracleAllOk, "c1", "c1.txt", false⟩, ⟨oracleFailP1, "c2", "c2.txt", false⟩,
    ⟨oracleAllOk, "c3", "c3.txt", false⟩]

theorem runLoop_C8_w :
    runLoop true runSteps fsEmpty default
      = runLoop true (runSteps.take (runLoop true runSteps fsEmpty default).count)
          fsEmpty default
    ∧ 1 ≤ (runLoop true runSteps fsEmpty default).count
    ∧ ∃ failing,
        runSteps.get? ((runLoop true runSteps fsEmpty default).count - 1) = some failing
        ∧ (∀ k, k ≠ failing.file_stem →
            hmGet (runLoop true runSteps fsEmpty default).fs.glossaries k
              = hmGet (runLoop true
                  (runSteps.take ((runLoop true runSteps fsEmpty default).count - 1))
                  fsEmpty default).fs.glossaries k)
        ∧ (∀ k, k ≠ failing.file_name →
            hmGet (runLoop true runSteps fsEmpty default).fs.outputs k
              = hmGet (runLoop true
                  (runSteps.take ((runLoop true runSteps fsEmpty default).count - 1))
                  fsEmpty default).fs.outputs k) :=
  runLoop_C8 true runSteps fsEmpty default ProcError.backendErr (by decide)

end NovelTrans
